import Mathlib

/-!
Shallow embedding of the mesh-flattening, subset-remapping and
change-tracked-emission logic of `src/isaac_rerun_logger/__init__.py`
(class `UsdRerunLogger`), together with proofs of the specification's
testable properties.

Conventions of the embedding:
* numpy arrays and Python lists become Lean `List`s;
* numpy fancy indexing (`xs[idxs]`), which raises `IndexError` when an
  index is out of range, becomes an `Option`-returning gather;
* Python `list` subscripting with a possibly negative `int` index keeps
  Python semantics (negative indices wrap, too-negative indices raise);
* the vertex / normal / texcoord payloads are abstract type parameters:
  no verified claim inspects coordinate values, only buffer lengths and
  index structure, so the attribute-expansion steps that merely gather
  payloads are represented by the same `Option` gather as positions.
-/

namespace UsdLogger

/-- A triangle: a triple of indices into a vertex buffer
(`triangles_list` rows in `_log_mesh`). -/
abbrev Tri := Nat × Nat × Nat

/-- The three index entries of a triangle, in order. -/
def triEntries (t : Tri) : List Nat := [t.1, t.2.1, t.2.2]

/-- numpy fancy indexing `xs[idxs]`: gathers `xs` at each index,
failing (like numpy's `IndexError`) if any index is out of range. -/
def npGather (xs : List α) : List Nat → Option (List α)
  | [] => some []
  | i :: rest => do
    let v ← xs.get? i
    let vs ← npGather xs rest
    return v :: vs

/-- Triangles generated for one face of size `count` whose corners occupy
positions `idx, idx+1, …, idx+count-1` of the (flattened) corner buffer.
Mirrors the `should_flatten` branch of `_log_mesh`:
`count == 3` one triangle, `count == 4` two triangles split along the
0-2 diagonal, otherwise the fan `for i in range(1, count - 1)`. -/
def fanLocal (idx count : Nat) : List Tri :=
  if count = 3 then
    [(idx, idx + 1, idx + 2)]
  else if count = 4 then
    [(idx, idx + 1, idx + 2), (idx, idx + 2, idx + 3)]
  else
    (List.range' 1 (count - 2)).map fun i => (idx, idx + i, idx + i + 1)

/-- The fan loop of the shared-vertex branch of `_log_mesh`:
for each `i` in the given list, the triangle
`(face_vertex_indices[idx], face_vertex_indices[idx+i],
face_vertex_indices[idx+i+1])`. -/
def fanSharedGo (fvi : List Nat) (idx : Nat) : List Nat → Option (List Tri)
  | [] => some []
  | i :: rest => do
    let a ← fvi.get? idx
    let b ← fvi.get? (idx + i)
    let c ← fvi.get? (idx + i + 1)
    let more ← fanSharedGo fvi idx rest
    return (a, b, c) :: more

/-- Triangles generated for one face in the shared-vertex branch of
`_log_mesh`: the same fan pattern as `fanLocal`, but each position is
read through `face_vertex_indices` (numpy indexing, so out-of-range
reads fail). -/
def fanShared (fvi : List Nat) (idx count : Nat) : Option (List Tri) :=
  if count = 3 then do
    let a ← fvi.get? idx
    let b ← fvi.get? (idx + 1)
    let c ← fvi.get? (idx + 2)
    return [(a, b, c)]
  else if count = 4 then do
    let a ← fvi.get? idx
    let b ← fvi.get? (idx + 1)
    let c ← fvi.get? (idx + 2)
    let d ← fvi.get? (idx + 3)
    return [(a, b, c), (a, c, d)]
  else
    fanSharedGo fvi idx (List.range' 1 (count - 2))

/-- The per-face triangle loop of the flattening branch of `_log_mesh`:
walks `face_vertex_counts`, threading the running corner offset `idx`
and the running `current_triangle_index` `cur`; returns the
concatenated triangle list and `face_to_triangle_indices`. -/
def flattenLoop : List Nat → Nat → Nat → List Tri × List (List Nat)
  | [], _, _ => ([], [])
  | count :: rest, idx, cur =>
    let tris := fanLocal idx count
    let next := flattenLoop rest (idx + count) (cur + tris.length)
    (tris ++ next.1, List.range' cur tris.length :: next.2)

/-- The per-face triangle loop of the shared-vertex branch of
`_log_mesh`, threading the same `idx` / `current_triangle_index`
state; fails if a corner position is out of `face_vertex_indices`'
range. -/
def sharedLoop (fvi : List Nat) : List Nat → Nat → Nat → Option (List Tri × List (List Nat))
  | [], _, _ => some ([], [])
  | count :: rest, idx, cur => do
    let tris ← fanShared fvi idx count
    let next ← sharedLoop fvi rest (idx + count) (cur + tris.length)
    return (tris ++ next.1, List.range' cur tris.length :: next.2)

/-- The mesh attributes `_log_mesh` reads before the flattening
decision.  `texcoords` is the (index-resolved) `st` primvar data,
`st_interpolation` its interpolation token (`"constant"` when the
primvar is absent), and likewise for normals. -/
structure MeshInput (α β γ : Type) where
  vertices : List α
  face_vertex_counts : List Nat
  face_vertex_indices : List Nat
  texcoords : Option (List β)
  st_interpolation : String
  normals : Option (List γ)
  normals_interpolation : String

/-- The flattening decision of `_log_mesh`: face-varying texcoords or
normals force flattening, and so does the defensive fallback
`texcoords is not None and len(texcoords) == len(face_vertex_indices)
and len(texcoords) != len(vertices)`. -/
def shouldFlatten (m : MeshInput α β γ) : Bool :=
  ((m.st_interpolation == "faceVarying") || (m.normals_interpolation == "faceVarying"))
  || (match m.texcoords with
      | some t =>
        (t.length == m.face_vertex_indices.length) && !(t.length == m.vertices.length)
      | none => false)

/-- Result of the triangulation part of `_log_mesh`: the (possibly
duplicated) vertex buffer, the triangle list, and
`face_to_triangle_indices`. -/
structure FlattenResult (α : Type) where
  vertices : List α
  triangles : List Tri
  face_to_triangle_indices : List (List Nat)
  deriving DecidableEq, Repr

/-- The triangulation part of `_log_mesh`: decide whether to flatten;
in the flattening branch duplicate the vertex buffer by
`vertices[face_vertex_indices]` and emit corner-position triangles, in
the shared branch keep the vertex buffer and emit triangles of
`face_vertex_indices` values.  (The parallel gather of the normal and
texcoord payloads is not modelled: no verified claim mentions the
attribute buffers' contents.) -/
def flattenMesh (m : MeshInput α β γ) : Option (FlattenResult α) :=
  if shouldFlatten m then do
    let verts ← npGather m.vertices m.face_vertex_indices
    let r := flattenLoop m.face_vertex_counts 0 0
    return ⟨verts, r.1, r.2⟩
  else do
    let r ← sharedLoop m.face_vertex_indices m.face_vertex_counts 0 0
    return ⟨m.vertices, r.1, r.2⟩

/-- Number of triangles the fan produces for a face of size `count`. -/
def numTris (count : Nat) : Nat :=
  if count = 3 then 1 else if count = 4 then 2 else count - 2

theorem fanLocal_length (idx count : Nat) : (fanLocal idx count).length = numTris count := by
  unfold fanLocal numTris
  split
  · rfl
  · split
    · rfl
    · simp

theorem numTris_of_ge_three {count : Nat} (h : 3 ≤ count) : numTris count = count - 2 := by
  unfold numTris
  split
  · omega
  · split
    · omega
    · rfl

/-- Closed form of the triangle list produced by `flattenLoop`:
concatenation of the per-face fans. -/
def trisFlat : List Nat → Nat → List Tri
  | [], _ => []
  | c :: rest, idx => fanLocal idx c ++ trisFlat rest (idx + c)

/-- Closed form of `face_to_triangle_indices`: face `i` receives the
`numTris cᵢ` consecutive triangle positions starting after all earlier
faces' triangles. -/
def mapsFlat : List Nat → Nat → List (List Nat)
  | [], _ => []
  | c :: rest, cur => List.range' cur (numTris c) :: mapsFlat rest (cur + numTris c)

theorem flattenLoop_eq (counts : List Nat) (idx cur : Nat) :
    flattenLoop counts idx cur = (trisFlat counts idx, mapsFlat counts cur) := by
  induction counts generalizing idx cur with
  | nil => rfl
  | cons c rest ih => simp [flattenLoop, trisFlat, mapsFlat, fanLocal_length, ih]

theorem trisFlat_length (counts : List Nat) (idx : Nat) :
    (trisFlat counts idx).length = (counts.map numTris).sum := by
  induction counts generalizing idx with
  | nil => rfl
  | cons c rest ih => simp [trisFlat, fanLocal_length, ih]

theorem mapsFlat_length (counts : List Nat) (cur : Nat) :
    (mapsFlat counts cur).length = counts.length := by
  induction counts generalizing cur with
  | nil => rfl
  | cons c rest ih => simp [mapsFlat, ih]

theorem mapsFlat_flatten (counts : List Nat) (cur : Nat) :
    (mapsFlat counts cur).flatten = List.range' cur ((counts.map numTris).sum) := by
  induction counts generalizing cur with
  | nil => rfl
  | cons c rest ih =>
    simp only [mapsFlat, List.flatten_cons, ih, List.map_cons, List.sum_cons]
    have h := List.range'_append cur (numTris c) ((rest.map numTris).sum) 1
    simpa [Nat.add_comm] using h

theorem mapsFlat_getD (counts : List Nat) (cur i : Nat) (h : i < counts.length) :
    (mapsFlat counts cur).getD i [] =
      List.range' (cur + ((counts.take i).map numTris).sum) (numTris (counts.getD i 0)) := by
  induction counts generalizing cur i with
  | nil => simp at h
  | cons c rest ih =>
    cases i with
    | zero => simp [mapsFlat]
    | succ i =>
      have h' : i < rest.length := by simpa using h
      simp only [mapsFlat, List.getD_cons_succ, List.take_succ_cons, List.map_cons,
        List.sum_cons, List.getD_cons_succ]
      rw [ih (cur + numTris c) i h', Nat.add_assoc]

/-- Indexing a list at each of a list of positions, dropping
out-of-range positions (used to state what the face→triangle map picks
out of the triangle list). -/
def gather (xs : List α) (js : List Nat) : List α :=
  js.filterMap fun j => xs[j]?

theorem gather_nil (xs : List α) : gather xs [] = [] := rfl

theorem gather_cons (xs : List α) (j : Nat) (js : List Nat) :
    gather xs (j :: js) = (xs[j]?.toList) ++ gather xs js := by
  cases h : xs[j]? <;> simp [gather, List.filterMap_cons, h]

theorem gather_eq_map (xs : List α) (d : α) (js : List Nat)
    (h : ∀ j ∈ js, j < xs.length) :
    gather xs js = js.map fun j => xs.getD j d := by
  induction js with
  | nil => rfl
  | cons j js ih =>
    have hj : j < xs.length := h j (by simp)
    rw [gather_cons, ih fun a ha => h a (by simp [ha])]
    simp [List.getElem?_eq_getElem hj, List.getD_eq_getElem xs d hj]

theorem gather_map_add (xs : List α) (k : Nat) (js : List Nat) :
    gather xs (js.map fun j => k + j) = gather (xs.drop k) js := by
  induction js with
  | nil => rfl
  | cons j js ih =>
    simp only [List.map_cons, gather_cons, ih]
    congr 1
    simp [List.getElem?_drop]

theorem gather_range' (xs : List α) (s n : Nat) (h : s + n ≤ xs.length) :
    gather xs (List.range' s n) = (xs.drop s).take n := by
  induction n generalizing s with
  | zero => simp [gather]
  | succ n ih =>
    have hs : s < xs.length := by omega
    rw [List.range'_succ, gather_cons, ih (s + 1) (by omega)]
    rw [List.getElem?_eq_getElem hs]
    simp only [Option.toList_some, List.singleton_append]
    rw [List.drop_eq_getElem_cons hs, List.take_succ_cons]

/-- Picking the block of positions assigned to face `i` out of the
concatenated triangle list recovers exactly face `i`'s fan. -/
theorem trisFlat_block (counts : List Nat) (idx i : Nat) (h : i < counts.length) :
    ((trisFlat counts idx).drop (((counts.take i).map numTris).sum)).take
        (numTris (counts.getD i 0))
      = fanLocal (idx + (counts.take i).sum) (counts.getD i 0) := by
  induction counts generalizing idx i with
  | nil => simp at h
  | cons c rest ih =>
    cases i with
    | zero =>
      simp only [List.take_zero, List.map_nil, List.sum_nil, List.drop_zero,
        List.getD_cons_zero, trisFlat, Nat.add_zero]
      rw [← fanLocal_length idx c, List.take_left]
    | succ i =>
      have h' : i < rest.length := by simpa using h
      simp only [List.take_succ_cons, List.map_cons, List.sum_cons, trisFlat,
        List.getD_cons_succ]
      rw [← fanLocal_length idx c, List.drop_append, ih (idx + c) i h', Nat.add_assoc]

/-- Every index entry of a fan triangle of a face of size `count`
starting at corner `idx` lies in `[idx, idx + count)`. -/
theorem fanLocal_entry_bound {idx count : Nat} {t : Tri} (ht : t ∈ fanLocal idx count)
    {x : Nat} (hx : x ∈ triEntries t) : idx ≤ x ∧ x < idx + count := by
  unfold fanLocal at ht
  split at ht
  · simp only [List.mem_singleton] at ht
    subst ht
    simp only [triEntries, List.mem_cons, List.mem_singleton, List.not_mem_nil, or_false] at hx
    omega
  · split at ht
    · simp only [List.mem_cons, List.mem_singleton, List.not_mem_nil, or_false] at ht
      rcases ht with ht | ht <;> subst ht <;>
        simp only [triEntries, List.mem_cons, List.mem_singleton, List.not_mem_nil,
          or_false] at hx <;> omega
    · simp only [List.mem_map, List.mem_range'_1] at ht
      obtain ⟨j, hj, rfl⟩ := ht
      simp only [triEntries, List.mem_cons, List.mem_singleton, List.not_mem_nil,
        or_false] at hx
      omega

/-- For a face of size `count ≥ 3`, the index entries of its fan
triangles are exactly the corner positions `idx, …, idx + count - 1`. -/
theorem fanLocal_entries_iff {idx count : Nat} (h3 : 3 ≤ count) (x : Nat) :
    (∃ t ∈ fanLocal idx count, x ∈ triEntries t) ↔ idx ≤ x ∧ x < idx + count := by
  constructor
  · rintro ⟨t, ht, hx⟩
    exact fanLocal_entry_bound ht hx
  · rintro ⟨hle, hlt⟩
    unfold fanLocal
    split
    · rename_i hc
      subst hc
      refine ⟨(idx, idx + 1, idx + 2), by simp, ?_⟩
      simp only [triEntries, List.mem_cons, List.mem_singleton, List.not_mem_nil, or_false]
      omega
    · split
      · rename_i hc3 hc4
        subst hc4
        by_cases hx2 : x ≤ idx + 2
        · refine ⟨(idx, idx + 1, idx + 2), by simp, ?_⟩
          simp only [triEntries, List.mem_cons, List.mem_singleton, List.not_mem_nil, or_false]
          omega
        · refine ⟨(idx, idx + 2, idx + 3), by simp, ?_⟩
          simp only [triEntries, List.mem_cons, List.mem_singleton, List.not_mem_nil, or_false]
          omega
      · rename_i hc3 hc4
        have h5 : 5 ≤ count := by omega
        by_cases hx0 : x = idx
        · refine ⟨(idx, idx + 1, idx + 2), ?_, ?_⟩
          · simp only [List.mem_map, List.mem_range'_1]
            exact ⟨1, by omega, by simp⟩
          · simp [triEntries, hx0]
        · by_cases hxlast : x = idx + count - 1
          · refine ⟨(idx, idx + (count - 2), idx + (count - 2) + 1), ?_, ?_⟩
            · simp only [List.mem_map, List.mem_range'_1]
              exact ⟨count - 2, by omega, by simp⟩
            · simp only [triEntries, List.mem_cons, List.mem_singleton, List.not_mem_nil,
                or_false]
              omega
          · obtain ⟨j, hj1, hj2, rfl⟩ : ∃ j, 1 ≤ j ∧ j ≤ count - 2 ∧ x = idx + j :=
              ⟨x - idx, by omega, by omega, by omega⟩
            refine ⟨(idx, idx + j, idx + j + 1), ?_, ?_⟩
            · simp only [List.mem_map, List.mem_range'_1]
              exact ⟨j, by omega, by simp⟩
            · simp [triEntries]

/-- Look one triangle of corner positions up through
`face_vertex_indices` (failing on an out-of-range position). -/
def triShared (fvi : List Nat) (t : Tri) : Option Tri := do
  let a ← fvi[t.1]?
  let b ← fvi[t.2.1]?
  let c ← fvi[t.2.2]?
  return (a, b, c)

/-- Look a whole triangle list up through `face_vertex_indices`. -/
def triSharedList (fvi : List Nat) : List Tri → Option (List Tri)
  | [] => some []
  | t :: rest => do
    let u ← triShared fvi t
    let more ← triSharedList fvi rest
    return u :: more

/-- A triangle of corner positions mapped through
`face_vertex_indices` by total lookup (valid once positions are known
to be in range). -/
def triD (fvi : List Nat) (t : Tri) : Tri :=
  (fvi.getD t.1 0, fvi.getD t.2.1 0, fvi.getD t.2.2 0)

theorem triEntries_triD (fvi : List Nat) (t : Tri) :
    triEntries (triD fvi t) = (triEntries t).map fun p => fvi.getD p 0 := by
  simp [triEntries, triD]

theorem triShared_eq_some {fvi : List Nat} {t : Tri}
    (h : ∀ x ∈ triEntries t, x < fvi.length) :
    triShared fvi t = some (triD fvi t) := by
  obtain ⟨a, b, c⟩ := t
  have ha : a < fvi.length := h a (by simp [triEntries])
  have hb : b < fvi.length := h b (by simp [triEntries])
  have hc : c < fvi.length := h c (by simp [triEntries])
  simp [triShared, triD, List.getElem?_eq_getElem, ha, hb, hc,
    List.getD_eq_getElem fvi 0 ha, List.getD_eq_getElem fvi 0 hb,
    List.getD_eq_getElem fvi 0 hc]

theorem triSharedList_eq_some {fvi : List Nat} {T : List Tri}
    (h : ∀ t ∈ T, ∀ x ∈ triEntries t, x < fvi.length) :
    triSharedList fvi T = some (T.map (triD fvi)) := by
  induction T with
  | nil => rfl
  | cons t rest ih =>
    rw [triSharedList, triShared_eq_some (h t (by simp)),
      ih fun u hu => h u (by simp [hu])]
    rfl

theorem triSharedList_append (fvi : List Nat) (A B : List Tri) :
    triSharedList fvi (A ++ B) = do
      let a ← triSharedList fvi A
      let b ← triSharedList fvi B
      return a ++ b := by
  induction A with
  | nil =>
    cases h : triSharedList fvi B <;> simp [triSharedList, h]
  | cons t rest ih =>
    simp only [List.cons_append, triSharedList, List.append_eq]
    rw [ih]
    cases h1 : triShared fvi t with
    | none => simp
    | some u =>
      simp only [Option.bind_eq_bind, Option.some_bind]
      cases h2 : triSharedList fvi rest with
      | none => simp
      | some a =>
        simp only [Option.some_bind]
        cases h3 : triSharedList fvi B <;> simp

theorem triSharedList_length {fvi : List Nat} {T U : List Tri}
    (h : triSharedList fvi T = some U) : U.length = T.length := by
  induction T generalizing U with
  | nil =>
    simp only [triSharedList, Option.some_inj] at h
    simp [← h]
  | cons t rest ih =>
    rw [triSharedList] at h
    cases ht : triShared fvi t with
    | none => rw [ht] at h; simp at h
    | some u =>
      rw [ht] at h
      cases hr : triSharedList fvi rest with
      | none => rw [hr] at h; simp at h
      | some us =>
        rw [hr] at h
        simp only [Option.bind_eq_bind, Option.some_bind, Option.pure_def,
          Option.some_inj] at h
        subst h
        simp [ih hr]

/-- The fan loop of the shared branch is entrywise lookup of the
flattened branch's fan through `face_vertex_indices`. -/
theorem fanSharedGo_eq (fvi : List Nat) (idx : Nat) (l : List Nat) :
    fanSharedGo fvi idx l
      = triSharedList fvi (l.map fun i => (idx, idx + i, idx + i + 1)) := by
  induction l with
  | nil => rfl
  | cons i rest ih =>
    simp only [fanSharedGo, List.map_cons, triSharedList, ih, triShared]
    cases ha : fvi[idx]? <;> simp [ha]
    cases hb : fvi[idx + i]? <;> simp [hb]
    cases hc : fvi[idx + i + 1]? <;> simp [hc]

theorem fanShared_eq (fvi : List Nat) (idx count : Nat) :
    fanShared fvi idx count = triSharedList fvi (fanLocal idx count) := by
  unfold fanShared fanLocal
  split
  · simp only [triSharedList, triShared]
    cases ha : fvi[idx]? <;> simp [ha]
    cases hb : fvi[idx + 1]? <;> simp [hb]
    cases hc : fvi[idx + 2]? <;> simp [hc]
  · split
    · simp only [triSharedList, triShared]
      cases ha : fvi[idx]? <;> simp [ha]
      cases hb : fvi[idx + 1]? <;> simp [hb]
      cases hc : fvi[idx + 2]? <;> simp [hc]
      cases hd : fvi[idx + 3]? <;> simp [hd]
    · exact fanSharedGo_eq fvi idx _

/-- The shared-vertex loop of `_log_mesh` computes the same
`face_to_triangle_indices` as the flattening loop, and its triangle
list is the flattening loop's triangle list looked up entrywise
through `face_vertex_indices`. -/
theorem sharedLoop_eq (fvi counts : List Nat) (idx cur : Nat) :
    sharedLoop fvi counts idx cur
      = (triSharedList fvi (trisFlat counts idx)).map fun T => (T, mapsFlat counts cur) := by
  induction counts generalizing idx cur with
  | nil => rfl
  | cons c rest ih =>
    simp only [sharedLoop, fanShared_eq, trisFlat, triSharedList_append, mapsFlat]
    cases hA : triSharedList fvi (fanLocal idx c) with
    | none => simp
    | some A =>
      have hlen : A.length = numTris c := by
        rw [triSharedList_length hA, fanLocal_length]
      simp only [Option.bind_eq_bind, Option.some_bind]
      rw [ih (idx + c) (cur + A.length), hlen]
      cases hB : triSharedList fvi (trisFlat rest (idx + c)) <;> simp [hB, hlen]

/-- numpy's gather succeeds when every index is in range, returning
the elementwise `getD` map. -/
theorem npGather_eq_some (xs : List α) [Inhabited α] (js : List Nat)
    (h : ∀ j ∈ js, j < xs.length) :
    npGather xs js = some (js.map fun j => xs.getD j default) := by
  induction js with
  | nil => rfl
  | cons j rest ih =>
    have hj : j < xs.length := h j (by simp)
    rw [npGather, ih fun a ha => h a (by simp [ha])]
    simp [List.get?_eq_getElem?, List.getElem?_eq_getElem hj,
      List.getD_eq_getElem xs default hj]

/-- Every index entry of the concatenated fan triangle list lies in
`[idx, idx + sum counts)`. -/
theorem trisFlat_entry_bound {counts : List Nat} {idx : Nat} {t : Tri}
    (ht : t ∈ trisFlat counts idx) {x : Nat} (hx : x ∈ triEntries t) :
    idx ≤ x ∧ x < idx + counts.sum := by
  induction counts generalizing idx with
  | nil => simp [trisFlat] at ht
  | cons c rest ih =>
    simp only [trisFlat, List.mem_append] at ht
    rcases ht with ht | ht
    · have := fanLocal_entry_bound ht hx
      simp only [List.sum_cons]
      omega
    · have := ih ht
      simp only [List.sum_cons]
      omega

theorem gather_map (xs : List α) (f : α → δ) (js : List Nat) :
    gather (xs.map f) js = (gather xs js).map f := by
  induction js with
  | nil => rfl
  | cons j rest ih =>
    rw [gather_cons, gather_cons, List.map_append, ih]
    cases h : xs[j]? <;> simp [h]

theorem sum_take_getD_le (l : List Nat) (i : Nat) (h : i < l.length) :
    (l.take i).sum + l.getD i 0 ≤ l.sum := by
  have hsplit := List.sum_take_add_sum_drop l i
  rw [List.drop_eq_getElem_cons h] at hsplit
  rw [List.getD_eq_getElem l 0 h]
  simp only [List.sum_cons] at hsplit
  omega

/-- Outcome of the flattening branch of `_log_mesh` on a mesh whose
corner indices are in range: the vertex buffer is duplicated per
corner and the loops' closed forms are reached. -/
theorem flattenMesh_flatten (m : MeshInput α β γ) [Inhabited α]
    (hf : shouldFlatten m = true)
    (hidx : ∀ v ∈ m.face_vertex_indices, v < m.vertices.length) :
    flattenMesh m = some ⟨m.face_vertex_indices.map fun i => m.vertices.getD i default,
      trisFlat m.face_vertex_counts 0, mapsFlat m.face_vertex_counts 0⟩ := by
  rw [flattenMesh, hf]
  simp [npGather_eq_some m.vertices m.face_vertex_indices hidx, flattenLoop_eq]

/-- Outcome of the shared-vertex branch of `_log_mesh` on a
length-consistent mesh: the original vertex buffer is kept and the
triangles are the fans looked up through `face_vertex_indices`. -/
theorem flattenMesh_shared (m : MeshInput α β γ)
    (hf : shouldFlatten m = false)
    (hlen : m.face_vertex_indices.length = m.face_vertex_counts.sum) :
    flattenMesh m = some ⟨m.vertices,
      (trisFlat m.face_vertex_counts 0).map (triD m.face_vertex_indices),
      mapsFlat m.face_vertex_counts 0⟩ := by
  have hb : ∀ t ∈ trisFlat m.face_vertex_counts 0, ∀ x ∈ triEntries t,
      x < m.face_vertex_indices.length := by
    intro t ht x hx
    have := trisFlat_entry_bound ht hx
    omega
  rw [flattenMesh, hf]
  simp [sharedLoop_eq, triSharedList_eq_some hb]

/-- The triangles the face→triangle map assigns to face `i`. -/
def faceTriangles (r : FlattenResult α) (i : Nat) : List Tri :=
  gather r.triangles (r.face_to_triangle_indices.getD i [])

/-- The positions of face `i`'s corners in the corner-index stream
(the running-offset window `[idx, idx + count)` of `_log_mesh`). -/
def cornerPositions (counts : List Nat) (i : Nat) : List Nat :=
  List.range' ((counts.take i).sum) (counts.getD i 0)

/-- In the closed forms, the positions assigned to face `i` pick out
exactly its fan from the concatenated triangle list. -/
theorem gather_trisFlat_maps (counts : List Nat) (i : Nat) (h : i < counts.length) :
    gather (trisFlat counts 0) ((mapsFlat counts 0).getD i [])
      = fanLocal ((counts.take i).sum) (counts.getD i 0) := by
  have hlt : i < (counts.map numTris).length := by simpa using h
  have hstart : ((counts.take i).map numTris).sum + numTris (counts.getD i 0)
      ≤ (counts.map numTris).sum := by
    have h1 : (counts.take i).map numTris = (counts.map numTris).take i :=
      List.map_take numTris counts i
    have h2 : numTris (counts.getD i 0) = (counts.map numTris).getD i 0 := by
      rw [List.getD_eq_getElem counts 0 h, List.getD_eq_getElem _ 0 hlt]
      simp
    rw [h1, h2]
    exact sum_take_getD_le _ i hlt
  rw [mapsFlat_getD counts 0 i h, Nat.zero_add,
    gather_range' _ _ _ (by rw [trisFlat_length]; exact hstart),
    trisFlat_block counts 0 i h, Nat.zero_add]

theorem npGather_length {xs : List α} {js : List Nat} {vs : List α}
    (h : npGather xs js = some vs) : vs.length = js.length := by
  induction js generalizing vs with
  | nil =>
    simp only [npGather, Option.some_inj] at h
    simp [← h]
  | cons j rest ih =>
    rw [npGather] at h
    cases hj : xs.get? j with
    | none => rw [hj] at h; simp at h
    | some v =>
      rw [hj] at h
      cases hr : npGather xs rest with
      | none => rw [hr] at h; simp at h
      | some vs' =>
        rw [hr] at h
        simp only [Option.bind_eq_bind, Option.some_bind, Option.pure_def,
          Option.some_inj] at h
        subst h
        simp [ih hr]

/-- C2 — the flattener duplicates the vertex buffer (one vertex per
face corner) iff texcoords or normals are face-varying, or texcoords
are present with the length of the corner-index array and a length
different from the vertex array; otherwise the original shared vertex
buffer is kept. -/
theorem flatten_decision_iff (m : MeshInput α β γ) :
    (shouldFlatten m = true ↔
      m.st_interpolation = "faceVarying" ∨ m.normals_interpolation = "faceVarying" ∨
        ∃ t, m.texcoords = some t ∧ t.length = m.face_vertex_indices.length ∧
          t.length ≠ m.vertices.length)
    ∧ (shouldFlatten m = false →
        ∀ r, flattenMesh m = some r → r.vertices = m.vertices)
    ∧ (shouldFlatten m = true →
        ∀ r, flattenMesh m = some r →
          r.vertices.length = m.face_vertex_indices.length) := by
  refine ⟨?_, ?_, ?_⟩
  · cases htx : m.texcoords with
    | none => simp [shouldFlatten, htx]
    | some t =>
      simp only [shouldFlatten, htx, Bool.or_eq_true, Bool.and_eq_true, beq_iff_eq,
        Bool.not_eq_eq_eq_not, Bool.not_true, beq_eq_false_iff_ne, Option.some_inj]
      constructor
      · rintro ((h | h) | ⟨h1, h2⟩)
        · exact Or.inl h
        · exact Or.inr (Or.inl h)
        · exact Or.inr (Or.inr ⟨t, rfl, h1, h2⟩)
      · rintro (h | h | ⟨t', ht', h1, h2⟩)
        · exact Or.inl (Or.inl h)
        · exact Or.inl (Or.inr h)
        · cases ht'
          exact Or.inr ⟨h1, h2⟩
  · intro hf r hr
    rw [flattenMesh, hf] at hr
    simp only [Bool.false_eq_true, if_false] at hr
    cases hs : sharedLoop m.face_vertex_indices m.face_vertex_counts 0 0 with
    | none => rw [hs] at hr; simp at hr
    | some p =>
      rw [hs] at hr
      simp only [Option.bind_eq_bind, Option.some_bind, Option.pure_def,
        Option.some_inj] at hr
      rw [← hr]
  · intro hf r hr
    rw [flattenMesh, hf] at hr
    simp only [if_true] at hr
    cases hg : npGather m.vertices m.face_vertex_indices with
    | none => rw [hg] at hr; simp at hr
    | some vs =>
      rw [hg] at hr
      simp only [Option.bind_eq_bind, Option.some_bind, Option.pure_def,
        Option.some_inj] at hr
      rw [← hr]
      exact npGather_length hg

/-- The single-quad mesh of the specification's concrete scenarios,
with vertex-interpolated texcoords (payloads are opaque labels). -/
def quadVertexUV : MeshInput Nat Nat Nat :=
  ⟨[10, 11, 12, 13], [4], [0, 1, 2, 3], some [20, 21, 22, 23], "vertex", none, "constant"⟩

/-- The same quad with face-varying texcoords of length 4. -/
def quadFaceVaryingUV : MeshInput Nat Nat Nat :=
  ⟨[10, 11, 12, 13], [4], [0, 1, 2, 3], some [20, 21, 22, 23], "faceVarying", none,
    "constant"⟩

/-- C3 — on the single quad (`counts=[4]`, `indices=[0,1,2,3]`, 4
vertices): with vertex-interpolated UVs the shared path is taken and
yields `triangles = [[0,1,2],[0,2,3]]` with
`face_to_triangles = [[0,1]]`; with face-varying UVs of length 4 the
flattening path is taken, the duplicated buffer has length 4, and the
triangles are again `[[0,1,2],[0,2,3]]` into the duplicated buffer. -/
theorem quad_scenarios :
    (shouldFlatten quadVertexUV = false
      ∧ flattenMesh quadVertexUV =
          some ⟨[10, 11, 12, 13], [(0, 1, 2), (0, 2, 3)], [[0, 1]]⟩)
    ∧ (shouldFlatten quadFaceVaryingUV = true
      ∧ flattenMesh quadFaceVaryingUV =
          some ⟨[10, 11, 12, 13], [(0, 1, 2), (0, 2, 3)], [[0, 1]]⟩
      ∧ ([10, 11, 12, 13] : List Nat).length = 4) := by
  decide

/-- C1 — on a mesh with all face sizes ≥ 3 (and the mesh invariants
`len(face_vertex_indices) = sum(face_vertex_counts)` and in-range
corner indices), the flattener produces `k - 2` triangles per face of
size `k` (total `sum (k - 2)`), and, per face, the set of index
entries of its triangles equals the face's corner set: the corner
positions on the flattened path, their `face_vertex_indices` values on
the shared path. -/
theorem flattener_fan_spec (m : MeshInput α β γ) [Inhabited α]
    (hc : ∀ c ∈ m.face_vertex_counts, 3 ≤ c)
    (hlen : m.face_vertex_indices.length = m.face_vertex_counts.sum)
    (hidx : ∀ v ∈ m.face_vertex_indices, v < m.vertices.length) :
    ∃ r, flattenMesh m = some r ∧
      r.triangles.length = (m.face_vertex_counts.map fun c => c - 2).sum ∧
      ∀ i, i < m.face_vertex_counts.length →
        (faceTriangles r i).length = m.face_vertex_counts.getD i 0 - 2 ∧
        ((faceTriangles r i).flatMap triEntries).toFinset =
          (if shouldFlatten m then cornerPositions m.face_vertex_counts i
           else gather m.face_vertex_indices
             (cornerPositions m.face_vertex_counts i)).toFinset := by
  have hnum : m.face_vertex_counts.map numTris = m.face_vertex_counts.map fun c => c - 2 :=
    List.map_congr_left fun c hcm => numTris_of_ge_three (hc c hcm)
  have hface : ∀ i, i < m.face_vertex_counts.length →
      3 ≤ m.face_vertex_counts.getD i 0 := by
    intro i hi
    refine hc _ ?_
    rw [List.getD_eq_getElem _ 0 hi]
    exact List.getElem_mem hi
  cases hf : shouldFlatten m with
  | true =>
    refine ⟨_, flattenMesh_flatten m hf hidx, ?_, ?_⟩
    · simp [trisFlat_length, hnum]
    · intro i hi
      unfold faceTriangles
      dsimp only
      rw [gather_trisFlat_maps m.face_vertex_counts i hi]
      refine ⟨?_, ?_⟩
      · rw [fanLocal_length, numTris_of_ge_three (hface i hi)]
      · rw [if_pos rfl]
        ext x
        simp only [List.mem_toFinset, List.mem_flatMap, cornerPositions, List.mem_range'_1]
        exact fanLocal_entries_iff (hface i hi) x
  | false =>
    refine ⟨_, flattenMesh_shared m hf hlen, ?_, ?_⟩
    · simp [trisFlat_length, hnum]
    · intro i hi
      have h3 := hface i hi
      have hoc := sum_take_getD_le m.face_vertex_counts i hi
      have hjs : ∀ j ∈ cornerPositions m.face_vertex_counts i,
          j < m.face_vertex_indices.length := by
        intro j hj
        rw [hlen]
        simp only [cornerPositions, List.mem_range'_1] at hj
        omega
      unfold faceTriangles
      dsimp only
      rw [gather_map, gather_trisFlat_maps m.face_vertex_counts i hi]
      refine ⟨?_, ?_⟩
      · rw [List.length_map, fanLocal_length, numTris_of_ge_three h3]
      · rw [if_neg (by simp : ¬false = true),
          gather_eq_map m.face_vertex_indices 0 _ hjs]
        ext x
        simp only [List.mem_toFinset, List.mem_flatMap, List.mem_map]
        constructor
        · rintro ⟨u, ⟨t, ht, rfl⟩, hx⟩
          rw [triEntries_triD] at hx
          simp only [List.mem_map] at hx
          obtain ⟨p, hp, rfl⟩ := hx
          have hpb := (fanLocal_entries_iff h3 p).mp ⟨t, ht, hp⟩
          refine ⟨p, ?_, rfl⟩
          simp only [cornerPositions, List.mem_range'_1]
          exact hpb
        · rintro ⟨p, hp, rfl⟩
          simp only [cornerPositions, List.mem_range'_1] at hp
          obtain ⟨t, ht, hmem⟩ := (fanLocal_entries_iff h3 p).mpr hp
          refine ⟨triD m.face_vertex_indices t, ⟨t, ht, rfl⟩, ?_⟩
          rw [triEntries_triD]
          exact List.mem_map.mpr ⟨p, hmem, rfl⟩

/-- C10 — on a mesh with all face sizes ≥ 3 and the mesh invariants,
`face_to_triangle_indices` partitions the triangle list: its
concatenation in face order is `0, 1, …, len(triangles) - 1`. -/
theorem face_map_partitions (m : MeshInput α β γ) [Inhabited α]
    (hc : ∀ c ∈ m.face_vertex_counts, 3 ≤ c)
    (hlen : m.face_vertex_indices.length = m.face_vertex_counts.sum)
    (hidx : ∀ v ∈ m.face_vertex_indices, v < m.vertices.length) :
    ∃ r, flattenMesh m = some r ∧
      r.face_to_triangle_indices.flatten = List.range r.triangles.length := by
  cases hf : shouldFlatten m with
  | true =>
    refine ⟨_, flattenMesh_flatten m hf hidx, ?_⟩
    simp [mapsFlat_flatten, trisFlat_length, List.range_eq_range']
  | false =>
    refine ⟨_, flattenMesh_shared m hf hlen, ?_⟩
    simp [mapsFlat_flatten, trisFlat_length, List.range_eq_range']

/-- A concrete two-face mesh (a pentagon and a triangle sharing an
edge) that takes the shared-vertex path. -/
def fanMeshShared : MeshInput Nat Nat Nat :=
  ⟨[0, 1, 2, 3, 4, 5], [5, 3], [0, 1, 2, 3, 4, 3, 4, 5], none, "constant", none, "constant"⟩

theorem flattener_fan_spec_witness :
    ((∀ c ∈ fanMeshShared.face_vertex_counts, 3 ≤ c)
      ∧ fanMeshShared.face_vertex_indices.length = fanMeshShared.face_vertex_counts.sum
      ∧ (∀ v ∈ fanMeshShared.face_vertex_indices, v < fanMeshShared.vertices.length))
    ∧ ∃ r, flattenMesh fanMeshShared = some r ∧
        r.triangles.length = (fanMeshShared.face_vertex_counts.map fun c => c - 2).sum ∧
        ∀ i, i < fanMeshShared.face_vertex_counts.length →
          (faceTriangles r i).length = fanMeshShared.face_vertex_counts.getD i 0 - 2 ∧
          ((faceTriangles r i).flatMap triEntries).toFinset =
            (if shouldFlatten fanMeshShared then
              cornerPositions fanMeshShared.face_vertex_counts i
             else gather fanMeshShared.face_vertex_indices
               (cornerPositions fanMeshShared.face_vertex_counts i)).toFinset :=
  ⟨⟨by decide, by decide, by decide⟩,
    flattener_fan_spec fanMeshShared (by decide) (by decide) (by decide)⟩

/-- A concrete one-quad mesh with face-varying texcoords that takes
the flattening path. -/
def fanMeshFlat : MeshInput Nat Nat Nat :=
  ⟨[0, 1, 2, 3], [4], [0, 1, 2, 3], some [7, 7, 7, 7], "faceVarying", none, "constant"⟩

theorem face_map_partitions_witness :
    ((∀ c ∈ fanMeshFlat.face_vertex_counts, 3 ≤ c)
      ∧ fanMeshFlat.face_vertex_indices.length = fanMeshFlat.face_vertex_counts.sum
      ∧ (∀ v ∈ fanMeshFlat.face_vertex_indices, v < fanMeshFlat.vertices.length))
    ∧ ∃ r, flattenMesh fanMeshFlat = some r ∧
        r.face_to_triangle_indices.flatten = List.range r.triangles.length :=
  ⟨⟨by decide, by decide, by decide⟩,
    face_map_partitions fanMeshFlat (by decide) (by decide) (by decide)⟩

/-- A quad mesh with normals tagged face-varying, exercising the
vertex-buffer clauses of the flattening decision. -/
def quadFvNormals : MeshInput Nat Nat Nat :=
  ⟨[0, 1, 2, 3], [4], [0, 1, 2, 3], none, "constant", some [9, 9, 9, 9], "faceVarying"⟩

/-- Python list subscripting with a possibly negative `int` index:
`xs[i]` wraps a negative index to `len(xs) + i` and raises
(`none` here) when the index is below `-len(xs)` or at/above
`len(xs)`. -/
def pyGet (xs : List δ) (i : Int) : Option δ :=
  if 0 ≤ i then xs.get? i.toNat
  else if -(xs.length : Int) ≤ i then xs.get? ((xs.length : Int) + i).toNat
  else none

/-- The subset gather loop of `_log_mesh`: for each subset face index,
`if face_idx < len(face_to_triangle_indices)` extend the position list
with `face_to_triangle_indices[face_idx]` (Python subscripting),
otherwise skip the index. -/
def subsetTriangleIndices (f2t : List (List Nat)) : List Int → Option (List Nat)
  | [] => some []
  | faceIdx :: rest =>
    if faceIdx < (f2t.length : Int) then do
      let tris ← pyGet f2t faceIdx
      let more ← subsetTriangleIndices f2t rest
      return tris ++ more
    else subsetTriangleIndices f2t rest

theorem pyGet_in_range {xs : List δ} {i : Int} (h0 : 0 ≤ i)
    (hl : i < (xs.length : Int)) (d : δ) :
    pyGet xs i = some (xs.getD i.toNat d) := by
  have hlt : i.toNat < xs.length := by omega
  rw [pyGet, if_pos h0, List.get?_eq_getElem?, List.getElem?_eq_getElem hlt,
    List.getD_eq_getElem xs d hlt]

/-- With all face indices in `[0, F)`, the subset gather succeeds and
concatenates the per-face triangle-position blocks in face order. -/
theorem subsetTriangleIndices_eq {f2t : List (List Nat)} {S : List Int}
    (hr : ∀ i ∈ S, 0 ≤ i ∧ i < (f2t.length : Int)) :
    subsetTriangleIndices f2t S = some (S.flatMap fun i => f2t.getD i.toNat []) := by
  induction S with
  | nil => rfl
  | cons i rest ih =>
    obtain ⟨h0, hl⟩ := hr i (by simp)
    rw [subsetTriangleIndices, if_pos hl, pyGet_in_range h0 hl [],
      ih fun j hj => hr j (by simp [hj])]
    simp

theorem range'_map_getD (L : List δ) (d : δ) :
    (List.range' 0 L.length).map (fun i => L.getD i d) = L := by
  have h1 := gather_range' L 0 L.length (by simp)
  have h2 := gather_eq_map L d (List.range' 0 L.length) (by
    intro j hj
    simp only [List.mem_range'_1] at hj
    omega)
  rw [h2] at h1
  simpa using h1

/-- Core of the subset-slicing property: given the partition fact
`f2t.flatten = range T.length` and two disjoint in-range face-index
sets covering all faces, the two gathered position lists are disjoint
and the two sliced triangle lists concatenate to a permutation of the
whole triangle list. -/
theorem subset_partition_core [Inhabited δ] (f2t : List (List Nat)) (T : List δ)
    (hflat : f2t.flatten = List.range T.length)
    (S1 S2 : List Int) (hn1 : S1.Nodup) (hn2 : S2.Nodup)
    (hd : ∀ i ∈ S1, i ∉ S2)
    (hr1 : ∀ i ∈ S1, 0 ≤ i ∧ i < (f2t.length : Int))
    (hr2 : ∀ i ∈ S2, 0 ≤ i ∧ i < (f2t.length : Int))
    (hcov : ∀ f, f < f2t.length → (f : Int) ∈ S1 ∨ (f : Int) ∈ S2) :
    ∃ p1 p2 t1 t2,
      subsetTriangleIndices f2t S1 = some p1
      ∧ subsetTriangleIndices f2t S2 = some p2
      ∧ npGather T p1 = some t1
      ∧ npGather T p2 = some t2
      ∧ p1.Disjoint p2
      ∧ (t1 ++ t2).Perm T := by
  have hp1 := subsetTriangleIndices_eq hr1
  have hp2 := subsetTriangleIndices_eq hr2
  set p1 := S1.flatMap fun i => f2t.getD i.toNat [] with hp1def
  set p2 := S2.flatMap fun i => f2t.getD i.toNat [] with hp2def
  -- the concatenated face indices are a permutation of all faces
  have hN : ((S1 ++ S2).map Int.toNat).Perm (List.range f2t.length) := by
    refine List.perm_of_nodup_nodup_toFinset_eq ?_ (List.nodup_range _) ?_
    · refine List.Nodup.map_on ?_ (List.Nodup.append hn1 hn2 hd)
      intro x hx y hy hxy
      have hx0 : 0 ≤ x := by
        rcases List.mem_append.mp hx with h | h
        exacts [(hr1 x h).1, (hr2 x h).1]
      have hy0 : 0 ≤ y := by
        rcases List.mem_append.mp hy with h | h
        exacts [(hr1 y h).1, (hr2 y h).1]
      omega
    · ext x
      simp only [List.mem_toFinset, List.mem_map, List.mem_append, List.mem_range]
      constructor
      · rintro ⟨i, hi | hi, rfl⟩
        · have := hr1 i hi; omega
        · have := hr2 i hi; omega
      · intro hx
        rcases hcov x hx with h | h
        · exact ⟨(x : Int), Or.inl h, Int.toNat_natCast x⟩
        · exact ⟨(x : Int), Or.inr h, Int.toNat_natCast x⟩
  -- concatenating the two position lists permutes all positions
  have hp12 : p1 ++ p2
      = ((S1 ++ S2).map Int.toNat).flatMap fun n => f2t.getD n [] := by
    rw [List.flatMap_map, List.flatMap_append S1 S2]
  have hperm : (p1 ++ p2).Perm (List.range T.length) := by
    rw [hp12, ← hflat]
    have h2 : (List.range f2t.length).flatMap (fun n => f2t.getD n []) = f2t.flatten := by
      rw [List.range_eq_range', List.flatMap_def, range'_map_getD]
    rw [← h2]
    exact List.Perm.flatMap_right _ hN
  have hbound : ∀ x ∈ p1 ++ p2, x < T.length := by
    intro x hx
    have := hperm.mem_iff.mp hx
    simpa [List.mem_range] using this
  -- slicing succeeds
  have ht1 := npGather_eq_some T p1 fun j hj => hbound j (by simp [hj])
  have ht2 := npGather_eq_some T p2 fun j hj => hbound j (by simp [hj])
  refine ⟨p1, p2, _, _, hp1, hp2, ht1, ht2, ?_, ?_⟩
  · -- position lists are disjoint: the per-face blocks are pairwise
    -- disjoint because their concatenation is the duplicate-free range
    have hnd : f2t.flatten.Nodup := by
      rw [hflat]; exact List.nodup_range _
    have hpw : List.Pairwise List.Disjoint f2t := (List.nodup_join.mp hnd).2
    intro x hx1 hx2
    obtain ⟨i, hi, hxi⟩ := List.mem_flatMap.mp hx1
    obtain ⟨j, hj, hxj⟩ := List.mem_flatMap.mp hx2
    have hij : i ≠ j := fun h => hd i hi (h ▸ hj)
    obtain ⟨hi0, hiL⟩ := hr1 i hi
    obtain ⟨hj0, hjL⟩ := hr2 j hj
    have hiN : i.toNat < f2t.length := by omega
    have hjN : j.toNat < f2t.length := by omega
    have hne : i.toNat ≠ j.toNat := by omega
    rw [List.getD_eq_getElem f2t [] hiN] at hxi
    rw [List.getD_eq_getElem f2t [] hjN] at hxj
    rcases Nat.lt_or_ge i.toNat j.toNat with hlt | hge
    · exact List.pairwise_iff_getElem.mp hpw i.toNat j.toNat (by omega) hjN hlt hxi hxj
    · have hlt : j.toNat < i.toNat := by omega
      exact List.pairwise_iff_getElem.mp hpw j.toNat i.toNat (by omega) hiN hlt hxj hxi
  · -- the two slices together permute the whole triangle list
    have hmap : ((p1 ++ p2).map fun j => T.getD j default).Perm
        ((List.range T.length).map fun j => T.getD j default) :=
      hperm.map _
    rw [List.range_eq_range', range'_map_getD] at hmap
    simpa using hmap

/-- C4 — for a mesh with all face sizes ≥ 3 (and the mesh
invariants), two disjoint in-range subsets that together cover all
faces slice the triangle list into two lists of disjoint triangle
positions whose concatenation is, up to order, the full triangle
list. -/
theorem subset_partition (m : MeshInput α β γ) [Inhabited α]
    (hc : ∀ c ∈ m.face_vertex_counts, 3 ≤ c)
    (hlen : m.face_vertex_indices.length = m.face_vertex_counts.sum)
    (hidx : ∀ v ∈ m.face_vertex_indices, v < m.vertices.length)
    (S1 S2 : List Int) (hn1 : S1.Nodup) (hn2 : S2.Nodup)
    (hd : ∀ i ∈ S1, i ∉ S2)
    (hr1 : ∀ i ∈ S1, 0 ≤ i ∧ i < (m.face_vertex_counts.length : Int))
    (hr2 : ∀ i ∈ S2, 0 ≤ i ∧ i < (m.face_vertex_counts.length : Int))
    (hcov : ∀ f, f < m.face_vertex_counts.length → (f : Int) ∈ S1 ∨ (f : Int) ∈ S2) :
    ∃ r p1 p2 t1 t2,
      flattenMesh m = some r
      ∧ subsetTriangleIndices r.face_to_triangle_indices S1 = some p1
      ∧ subsetTriangleIndices r.face_to_triangle_indices S2 = some p2
      ∧ npGather r.triangles p1 = some t1
      ∧ npGather r.triangles p2 = some t2
      ∧ p1.Disjoint p2
      ∧ (t1 ++ t2).Perm r.triangles := by
  have hF : (mapsFlat m.face_vertex_counts 0).length = m.face_vertex_counts.length :=
    mapsFlat_length m.face_vertex_counts 0
  cases hf : shouldFlatten m with
  | true =>
    have hflat : (mapsFlat m.face_vertex_counts 0).flatten
        = List.range (trisFlat m.face_vertex_counts 0).length := by
      rw [mapsFlat_flatten, trisFlat_length, List.range_eq_range']
    obtain ⟨p1, p2, t1, t2, h1, h2, h3, h4, h5, h6⟩ :=
      subset_partition_core (mapsFlat m.face_vertex_counts 0)
        (trisFlat m.face_vertex_counts 0) hflat S1 S2 hn1 hn2 hd
        (by rw [hF]; exact hr1) (by rw [hF]; exact hr2) (by rw [hF]; exact hcov)
    exact ⟨_, p1, p2, t1, t2, flattenMesh_flatten m hf hidx, h1, h2, h3, h4, h5, h6⟩
  | false =>
    have hflat : (mapsFlat m.face_vertex_counts 0).flatten
        = List.range ((trisFlat m.face_vertex_counts 0).map
            (triD m.face_vertex_indices)).length := by
      rw [mapsFlat_flatten, List.length_map, trisFlat_length, List.range_eq_range']
    obtain ⟨p1, p2, t1, t2, h1, h2, h3, h4, h5, h6⟩ :=
      subset_partition_core (mapsFlat m.face_vertex_counts 0)
        ((trisFlat m.face_vertex_counts 0).map (triD m.face_vertex_indices))
        hflat S1 S2 hn1 hn2 hd
        (by rw [hF]; exact hr1) (by rw [hF]; exact hr2) (by rw [hF]; exact hcov)
    exact ⟨_, p1, p2, t1, t2, flattenMesh_shared m hf hlen, h1, h2, h3, h4, h5, h6⟩

/-- The two-face mesh `fanMeshShared` with the subsets `{1}` and
`{0}`: face 1's triangle ends up in the first subset, face 0's three
fan triangles in the second. -/
theorem subset_partition_witness :
    ((∀ c ∈ fanMeshShared.face_vertex_counts, 3 ≤ c)
      ∧ ([1] : List Int).Nodup ∧ ([0] : List Int).Nodup
      ∧ (∀ i ∈ ([1] : List Int), i ∉ ([0] : List Int))
      ∧ (∀ f, f < fanMeshShared.face_vertex_counts.length →
          (f : Int) ∈ ([1] : List Int) ∨ (f : Int) ∈ ([0] : List Int)))
    ∧ ∃ r p1 p2 t1 t2,
        flattenMesh fanMeshShared = some r
        ∧ subsetTriangleIndices r.face_to_triangle_indices [1] = some p1
        ∧ subsetTriangleIndices r.face_to_triangle_indices [0] = some p2
        ∧ npGather r.triangles p1 = some t1
        ∧ npGather r.triangles p2 = some t2
        ∧ p1.Disjoint p2
        ∧ (t1 ++ t2).Perm r.triangles :=
  ⟨⟨by decide, by decide, by decide, by decide, by decide⟩,
    subset_partition fanMeshShared (by decide) (by decide) (by decide)
      [1] [0] (by decide) (by decide) (by decide) (by decide) (by decide) (by decide)⟩

/-- C5 (amended) — a subset face index at or above the face count is
skipped by the bound check: it contributes no triangle positions and
causes no error.  (Negative indices are *not* skipped; see the
counterexample.) -/
theorem subset_index_ge_face_count_skipped (f2t : List (List Nat)) (idx : Int)
    (h : (f2t.length : Int) ≤ idx) (rest : List Int) :
    subsetTriangleIndices f2t (idx :: rest) = subsetTriangleIndices f2t rest := by
  rw [subsetTriangleIndices, if_neg (by omega)]

theorem subset_index_ge_face_count_skipped_witness :
    ((([[0], [1, 2]] : List (List Nat)).length : Int) ≤ 5)
    ∧ subsetTriangleIndices [[0], [1, 2]] [5, 1]
        = subsetTriangleIndices [[0], [1, 2]] [1] :=
  ⟨by decide, subset_index_ge_face_count_skipped [[0], [1, 2]] 5 (by decide) [1]⟩

/-- C5 counterexample — the face index `-1` lies outside the valid
range `[0, 1)` of a one-face mesh, yet the subset gather does not
ignore it: Python wrap-around makes it contribute face 0's triangle
positions, and the index `-2` raises (models `IndexError`) instead of
being ignored. -/
theorem subset_negative_index_not_ignored :
    ((-1 : Int) < 0 ∧ (-2 : Int) < 0)
    ∧ subsetTriangleIndices [[0]] [(-1 : Int)] = some [0]
    ∧ subsetTriangleIndices [[0]] [(-1 : Int)] ≠ some []
    ∧ subsetTriangleIndices [[0]] [(-2 : Int)] = none := by
  decide

theorem flatten_decision_iff_witness :
    (shouldFlatten quadFvNormals = true
      ∧ (quadFvNormals.st_interpolation = "faceVarying"
          ∨ quadFvNormals.normals_interpolation = "faceVarying"
          ∨ ∃ t, quadFvNormals.texcoords = some t
              ∧ t.length = quadFvNormals.face_vertex_indices.length
              ∧ t.length ≠ quadFvNormals.vertices.length))
    ∧ (∀ r, flattenMesh quadFvNormals = some r →
        r.vertices.length = quadFvNormals.face_vertex_indices.length) :=
  ⟨⟨by decide, (flatten_decision_iff quadFvNormals).1.mp (by decide)⟩,
    (flatten_decision_iff quadFvNormals).2.2 (by decide)⟩

/-! ### Change-tracked emitter -/

/-- Dictionary assignment `memo[path] = t` on an association-list
memo: the entry for `path` is replaced (old entry removed). -/
def memoInsert (memo : List (String × M)) (path : String) (t : M) : List (String × M) :=
  (path, t) :: memo.eraseP fun e => e.1 == path

/-- The transform-diff step shared by `_log_transform`
(`isaac_rerun_logger`) and `_log_usd_transform` (`usd_rerun_logger`):
if the path is memoized with an equal transform, return without
logging; otherwise memoize the new transform and log it.  The `Bool`
is whether a log entry was emitted. -/
def logTransformStep [DecidableEq M] (memo : List (String × M)) (path : String) (t : M) :
    List (String × M) × Bool :=
  match memo.lookup path with
  | some prev => if prev = t then (memo, false) else (memoInsert memo path t, true)
  | none => (memoInsert memo path t, true)

theorem lookup_memoInsert_self [DecidableEq M] (memo : List (String × M))
    (path : String) (t : M) : (memoInsert memo path t).lookup path = some t := by
  simp [memoInsert, List.lookup]

theorem logTransformStep_lookup_self [DecidableEq M] (memo : List (String × M))
    (path : String) (t : M) :
    (logTransformStep memo path t).1.lookup path = some t := by
  rw [logTransformStep]
  cases h : memo.lookup path with
  | none => exact lookup_memoInsert_self memo path t
  | some prev =>
    by_cases hp : prev = t
    · simp [hp, h]
    · simp [hp, lookup_memoInsert_self]

/-- C6 — the transform-diff step emits whenever the path is unseen or
the memoized transform differs from the current one, and an
immediately repeated step with the same transform never emits: two
consecutive identical steps emit exactly once, on the first step. -/
theorem transform_diff_idempotent [DecidableEq M] (memo : List (String × M))
    (path : String) (t : M) :
    (memo.lookup path ≠ some t → (logTransformStep memo path t).2 = true)
    ∧ (logTransformStep (logTransformStep memo path t).1 path t).2 = false := by
  constructor
  · intro hne
    rw [logTransformStep]
    cases h : memo.lookup path with
    | none => rfl
    | some prev =>
      rw [h] at hne
      dsimp only
      rw [if_neg fun he => hne (by rw [he])]
  · rw [logTransformStep, logTransformStep_lookup_self]
    dsimp only
    rw [if_pos rfl]

/-- The per-prim facts `log_stage` reads during traversal: path,
guide purpose, the `IsA` predicates, and the current local
transform. -/
structure Node (M : Type) where
  path : String
  isGuide : Bool
  isXformable : Bool
  isMesh : Bool
  isCube : Bool
  xform : M
  deriving DecidableEq, Repr

/-- A semantic log emission of `log_stage`: a transform entry, a
(static) geometry entry for a mesh or cube, or a clear instruction. -/
inductive Event (M : Type) where
  | transform (path : String) (t : M)
  | geometry (path : String)
  | clear (path : String)
  deriving DecidableEq, Repr

/-- The two memos owned by the logger: `_logged_meshes` (a set,
modelled as a duplicate-free list) and `_last_transforms`. -/
structure LoggerState (M : Type) where
  logged_meshes : List String
  last_transforms : List (String × M)
  deriving DecidableEq, Repr

/-- The body of `log_stage`'s traversal loop for one (non-guide)
prim: transform diffing for Xformable prims, then once-only mesh
geometry, then once-only cube geometry (both keyed in
`_logged_meshes`). -/
def processPrim [DecidableEq M] (s : LoggerState M) (n : Node M) :
    LoggerState M × List (Event M) :=
  let p1 :=
    if n.isXformable then
      let r := logTransformStep s.last_transforms n.path n.xform
      (r.1, if r.2 then [Event.transform n.path n.xform] else ([] : List (Event M)))
    else (s.last_transforms, [])
  let p2 :=
    if n.isMesh && !(s.logged_meshes.contains n.path) then
      (n.path :: s.logged_meshes, [Event.geometry n.path])
    else (s.logged_meshes, ([] : List (Event M)))
  let p3 :=
    if n.isCube && !(p2.1.contains n.path) then
      (n.path :: p2.1, [Event.geometry n.path])
    else (p2.1, ([] : List (Event M)))
  (⟨p3.1, p1.1⟩, p1.2 ++ p2.2 ++ p3.2)

/-- The traversal loop of `log_stage`: skip guide prims, process the
rest in order, and collect `current_paths` (the visited non-guide
paths, in order).  Returns the updated state, `current_paths` and the
emitted events. -/
def logStageLoop [DecidableEq M] (s : LoggerState M) :
    List (Node M) → LoggerState M × List String × List (Event M)
  | [] => (s, [], [])
  | n :: rest =>
    if n.isGuide then logStageLoop s rest
    else
      let pr := processPrim s n
      let next := logStageLoop pr.1 rest
      (next.1, n.path :: next.2.1, pr.2 ++ next.2.2)

/-- The post-traversal sweep of `log_stage`: for every memoized path
absent from `current_paths`, emit a clear instruction and delete the
memo entry. -/
def clearPass [DecidableEq M] (memo : List (String × M)) (current : List String) :
    List (String × M) × List (Event M) :=
  match memo with
  | [] => ([], [])
  | (p, t) :: rest =>
    let next := clearPass rest current
    if current.contains p then ((p, t) :: next.1, next.2)
    else (next.1, Event.clear p :: next.2)

/-- One full `log_stage` call: traversal loop followed by the clear
sweep. -/
def logStage [DecidableEq M] (s : LoggerState M) (prims : List (Node M)) :
    LoggerState M × List (Event M) :=
  let lp := logStageLoop s prims
  let cp := clearPass lp.1.last_transforms lp.2.1
  (⟨lp.1.logged_meshes, cp.1⟩, lp.2.2 ++ cp.2)

/-- `N` consecutive `log_stage` calls over the same prim list,
returning the final state and each call's event list. -/
def logStageIter [DecidableEq M] (s : LoggerState M) (prims : List (Node M)) :
    Nat → LoggerState M × List (List (Event M))
  | 0 => (s, [])
  | n + 1 =>
    let r := logStage s prims
    let next := logStageIter r.1 prims n
    (next.1, r.2 :: next.2)

/-- Number of geometry emissions for path `p` in an event list. -/
def countGeom (p : String) (evs : List (Event M)) : Nat :=
  evs.countP fun e =>
    match e with
    | Event.geometry q => q == p
    | _ => false

/-- Number of clear instructions for path `p` in an event list. -/
def countClear (p : String) (evs : List (Event M)) : Nat :=
  evs.countP fun e =>
    match e with
    | Event.clear q => q == p
    | _ => false

/-- `log_stage` reaches the geometry-logging branch for path `p`:
some non-guide mesh or cube prim with that path is visible. -/
def visibleGeom (p : String) (prims : List (Node M)) : Prop :=
  ∃ n ∈ prims, n.path = p ∧ n.isGuide = false ∧ (n.isMesh || n.isCube) = true

instance visibleGeomDecidable (p : String) (prims : List (Node M)) :
    Decidable (visibleGeom p prims) :=
  List.decidableBEx _ prims

theorem processPrim_countGeom [DecidableEq M] (s : LoggerState M) (n : Node M) (p : String) :
    countGeom p (processPrim s n).2
      = if n.path = p ∧ p ∉ s.logged_meshes ∧ (n.isMesh || n.isCube) = true
        then 1 else 0 := by
  rcases n with ⟨np, ng, nx, nm, nc, nt⟩
  simp only [processPrim, countGeom]
  cases nm <;> cases nc <;> cases nx <;>
    by_cases hpath : np = p <;>
      by_cases hmem : p ∈ s.logged_meshes <;>
        by_cases hnp : np ∈ s.logged_meshes <;>
          cases hr : (logTransformStep s.last_transforms np nt).2 <;>
            simp_all [List.countP_append, List.countP_cons, List.elem_eq_mem, countGeom]

theorem processPrim_logged_mem [DecidableEq M] (s : LoggerState M) (n : Node M) (q : String) :
    q ∈ (processPrim s n).1.logged_meshes
      ↔ q ∈ s.logged_meshes ∨ (q = n.path ∧ (n.isMesh || n.isCube) = true) := by
  rcases n with ⟨np, ng, nx, nm, nc, nt⟩
  simp only [processPrim]
  cases nm <;> cases nc <;> cases nx <;>
    by_cases hmem : np ∈ s.logged_meshes <;>
      simp_all [List.elem_eq_mem] <;> tauto

theorem visibleGeom_cons {p : String} {n : Node M} {rest : List (Node M)} :
    visibleGeom p (n :: rest)
      ↔ (n.path = p ∧ n.isGuide = false ∧ (n.isMesh || n.isCube) = true)
        ∨ visibleGeom p rest := by
  simp [visibleGeom]

theorem logStageLoop_logged_mem [DecidableEq M] (prims : List (Node M))
    (s : LoggerState M) (q : String) :
    q ∈ (logStageLoop s prims).1.logged_meshes
      ↔ q ∈ s.logged_meshes ∨ visibleGeom q prims := by
  induction prims generalizing s with
  | nil => simp [logStageLoop, visibleGeom]
  | cons n rest ih =>
    rw [logStageLoop]
    by_cases hg : n.isGuide
    · rw [if_pos hg, ih, visibleGeom_cons]
      have : ¬(n.path = q ∧ n.isGuide = false ∧ (n.isMesh || n.isCube) = true) := by
        simp [hg]
      tauto
    · rw [if_neg hg]
      have hg' : n.isGuide = false := by simpa using hg
      simp only [ih, processPrim_logged_mem, visibleGeom_cons, hg']
      tauto

theorem countGeom_append (p : String) (l1 l2 : List (Event M)) :
    countGeom p (l1 ++ l2) = countGeom p l1 + countGeom p l2 :=
  List.countP_append _ l1 l2

theorem logStageLoop_countGeom [DecidableEq M] (prims : List (Node M))
    (s : LoggerState M) (p : String) :
    countGeom p (logStageLoop s prims).2.2
      = if p ∉ s.logged_meshes ∧ visibleGeom p prims then 1 else 0 := by
  induction prims generalizing s with
  | nil => simp [logStageLoop, countGeom, visibleGeom]
  | cons n rest ih =>
    rw [logStageLoop]
    by_cases hg : n.isGuide
    · rw [if_pos hg, ih]
      have hvis : visibleGeom p (n :: rest) ↔ visibleGeom p rest := by
        rw [visibleGeom_cons]
        constructor
        · rintro (⟨_, hgf, _⟩ | h)
          · rw [hg] at hgf; cases hgf
          · exact h
        · exact Or.inr
      by_cases h1 : p ∈ s.logged_meshes <;> by_cases h2 : visibleGeom p rest <;>
        simp [h1, h2, hvis]
    · rw [if_neg hg]
      have hg' : n.isGuide = false := by simpa using hg
      show countGeom p ((processPrim s n).2 ++ (logStageLoop (processPrim s n).1 rest).2.2)
        = _
      rw [countGeom_append, processPrim_countGeom, ih]
      by_cases hA : n.path = p ∧ p ∉ s.logged_meshes ∧ (n.isMesh || n.isCube) = true
      · have hmem : p ∈ (processPrim s n).1.logged_meshes :=
          (processPrim_logged_mem s n p).mpr (Or.inr ⟨hA.1.symm, hA.2.2⟩)
        have hvis : visibleGeom p (n :: rest) :=
          visibleGeom_cons.mpr (Or.inl ⟨hA.1, hg', hA.2.2⟩)
        rw [if_pos hA, if_neg fun h => h.1 hmem, if_pos ⟨hA.2.1, hvis⟩]
      · rw [if_neg hA]
        by_cases h1 : p ∈ s.logged_meshes
        · have hmem : p ∈ (processPrim s n).1.logged_meshes :=
            (processPrim_logged_mem s n p).mpr (Or.inl h1)
          rw [if_neg fun h => h.1 hmem, if_neg fun h => h.1 h1]
        · have hmem : p ∉ (processPrim s n).1.logged_meshes := by
            rw [processPrim_logged_mem]
            rintro (h | ⟨hq, hgeom⟩)
            · exact h1 h
            · exact hA ⟨hq.symm, h1, hgeom⟩
          have hiff : visibleGeom p (n :: rest) ↔ visibleGeom p rest := by
            rw [visibleGeom_cons]
            constructor
            · rintro (⟨hq, _, hgeom⟩ | h)
              · exact absurd ⟨hq, h1, hgeom⟩ hA
              · exact h
            · exact Or.inr
          by_cases h2 : visibleGeom p rest
          · rw [if_pos ⟨hmem, h2⟩, if_pos ⟨h1, hiff.mpr h2⟩]
          · rw [if_neg fun h => h2 h.2, if_neg fun h => h2 (hiff.mp h.2)]

theorem clearPass_countGeom [DecidableEq M] (memo : List (String × M))
    (current : List String) (p : String) :
    countGeom p (clearPass memo current).2 = 0 := by
  induction memo with
  | nil => rfl
  | cons e rest ih =>
    rw [clearPass]
    by_cases hc : current.contains e.1 = true <;>
      simp_all [countGeom, List.countP_cons]

theorem logStage_countGeom [DecidableEq M] (s : LoggerState M) (prims : List (Node M))
    (p : String) :
    countGeom p (logStage s prims).2
      = if p ∉ s.logged_meshes ∧ visibleGeom p prims then 1 else 0 := by
  show countGeom p ((logStageLoop s prims).2.2
    ++ (clearPass (logStageLoop s prims).1.last_transforms (logStageLoop s prims).2.1).2)
    = _
  rw [countGeom_append, logStageLoop_countGeom, clearPass_countGeom, Nat.add_zero]

theorem logStage_logged_mem [DecidableEq M] (s : LoggerState M) (prims : List (Node M))
    (q : String) :
    q ∈ (logStage s prims).1.logged_meshes
      ↔ q ∈ s.logged_meshes ∨ visibleGeom q prims :=
  logStageLoop_logged_mem prims s q

theorem logStageIter_countGeom_zero [DecidableEq M] (prims : List (Node M)) (p : String)
    (N : Nat) (s : LoggerState M) (hp : p ∈ s.logged_meshes) :
    countGeom p ((logStageIter s prims N).2.flatten) = 0 := by
  induction N generalizing s with
  | zero => rfl
  | succ N ih =>
    rw [logStageIter]
    show countGeom p ((logStage s prims).2
      ++ ((logStageIter (logStage s prims).1 prims N).2.flatten)) = 0
    rw [countGeom_append, logStage_countGeom,
      if_neg (fun h => h.1 hp),
      ih (logStage s prims).1 ((logStage_logged_mem s prims p).mpr (Or.inl hp))]

/-- C7 — starting from a state that has not yet logged geometry for
path `p`, across `N ≥ 1` identical traversal calls a visible mesh or
cube at `p` has its geometry emitted exactly once in total, namely in
the first call. -/
theorem geometry_logged_once [DecidableEq M] (prims : List (Node M)) (p : String)
    (s : LoggerState M) (hp : p ∉ s.logged_meshes) (hvis : visibleGeom p prims)
    (N : Nat) (hN : 1 ≤ N) :
    countGeom p ((logStageIter s prims N).2.flatten) = 1
    ∧ countGeom p ((logStageIter s prims N).2.headD []) = 1 := by
  obtain ⟨K, rfl⟩ : ∃ K, N = K + 1 := ⟨N - 1, by omega⟩
  have hfirst := logStage_countGeom s prims p
  rw [if_pos ⟨hp, hvis⟩] at hfirst
  have hrest := logStageIter_countGeom_zero prims p K (logStage s prims).1
    ((logStage_logged_mem s prims p).mpr (Or.inr hvis))
  constructor
  · rw [logStageIter]
    show countGeom p ((logStage s prims).2
      ++ ((logStageIter (logStage s prims).1 prims K).2.flatten)) = 1
    rw [countGeom_append, hfirst, hrest]
  · rw [logStageIter]
    simpa using hfirst

theorem lookup_cons_ne (k q : String) (v : M) (rest : List (String × M)) (h : q ≠ k) :
    List.lookup q ((k, v) :: rest) = List.lookup q rest := by
  rw [List.lookup, show (q == k) = false from beq_eq_false_iff_ne.mpr h]

theorem lookup_cons_self (k : String) (v : M) (rest : List (String × M)) :
    List.lookup k ((k, v) :: rest) = some v := by
  rw [List.lookup, show (k == k) = true from beq_self_eq_true k]

theorem lookup_eq_none_iff [DecidableEq M] (memo : List (String × M)) (p : String) :
    memo.lookup p = none ↔ p ∉ memo.map Prod.fst := by
  induction memo with
  | nil => simp
  | cons e rest ih =>
    obtain ⟨k, v⟩ := e
    by_cases hk : p = k
    · subst hk
      simp [lookup_cons_self]
    · rw [lookup_cons_ne k p v rest hk, ih]
      simp only [List.map_cons, List.mem_cons]
      constructor
      · rintro h (h1 | h1)
        · exact hk h1
        · exact h h1
      · intro h h1
        exact h (Or.inr h1)

theorem lookup_memoInsert_other [DecidableEq M] (memo : List (String × M))
    (path q : String) (t : M) (hq : q ≠ path) :
    (memoInsert memo path t).lookup q = memo.lookup q := by
  rw [memoInsert, lookup_cons_ne path q t _ hq]
  induction memo with
  | nil => rfl
  | cons e rest ih =>
    obtain ⟨k, v⟩ := e
    by_cases hk : k = path
    · subst hk
      rw [List.eraseP_cons_of_pos (by simp), lookup_cons_ne k q v rest hq]
    · rw [List.eraseP_cons_of_neg (by simpa using hk)]
      by_cases hqk : q = k
      · subst hqk
        rw [lookup_cons_self, lookup_cons_self]
      · rw [lookup_cons_ne k q v _ hqk, lookup_cons_ne k q v rest hqk, ih]

theorem logTransformStep_lookup_other [DecidableEq M] (memo : List (String × M))
    (path q : String) (t : M) (hq : q ≠ path) :
    (logTransformStep memo path t).1.lookup q = memo.lookup q := by
  rw [logTransformStep]
  cases h : memo.lookup path with
  | none => exact lookup_memoInsert_other memo path q t hq
  | some prev =>
    by_cases hp : prev = t
    · simp [hp]
    · simpa [hp] using lookup_memoInsert_other memo path q t hq

theorem processPrim_transforms [DecidableEq M] (s : LoggerState M) (n : Node M) :
    (processPrim s n).1.last_transforms
      = if n.isXformable then (logTransformStep s.last_transforms n.path n.xform).1
        else s.last_transforms := by
  rw [processPrim]
  cases n.isXformable <;> simp

theorem processPrim_lookup_other [DecidableEq M] (s : LoggerState M) (n : Node M)
    (q : String) (hq : q ≠ n.path) :
    (processPrim s n).1.last_transforms.lookup q = s.last_transforms.lookup q := by
  rw [processPrim_transforms]
  cases hx : n.isXformable
  · rw [if_neg (by simp)]
  · rw [if_pos rfl]
    exact logTransformStep_lookup_other s.last_transforms n.path q n.xform hq

theorem processPrim_lookup_isSome [DecidableEq M] (s : LoggerState M) (n : Node M)
    (q : String) (h : (s.last_transforms.lookup q).isSome) :
    ((processPrim s n).1.last_transforms.lookup q).isSome := by
  by_cases hq : q = n.path
  · subst hq
    rw [processPrim_transforms]
    cases hx : n.isXformable
    · rwa [if_neg (by simp)]
    · rw [if_pos rfl, logTransformStep_lookup_self]
      rfl
  · rwa [processPrim_lookup_other s n q hq]

theorem logStageLoop_lookup_other [DecidableEq M] (prims : List (Node M))
    (s : LoggerState M) (q : String)
    (habs : ∀ m ∈ prims, m.isGuide = false → m.path ≠ q) :
    (logStageLoop s prims).1.last_transforms.lookup q = s.last_transforms.lookup q := by
  induction prims generalizing s with
  | nil => rfl
  | cons n rest ih =>
    rw [logStageLoop]
    by_cases hg : n.isGuide
    · rw [if_pos hg]
      exact ih s fun m hm => habs m (by simp [hm])
    · rw [if_neg hg]
      have hg' : n.isGuide = false := by simpa using hg
      have hqn : q ≠ n.path := fun h => habs n (by simp) hg' h.symm
      rw [ih (processPrim s n).1 fun m hm => habs m (by simp [hm])]
      exact processPrim_lookup_other s n q hqn

theorem logStageLoop_lookup_isSome_mono [DecidableEq M] (prims : List (Node M))
    (s : LoggerState M) (q : String) (h : (s.last_transforms.lookup q).isSome) :
    ((logStageLoop s prims).1.last_transforms.lookup q).isSome := by
  induction prims generalizing s with
  | nil => exact h
  | cons m rest ih =>
    rw [logStageLoop]
    by_cases hgm : m.isGuide
    · rw [if_pos hgm]
      exact ih s h
    · rw [if_neg hgm]
      exact ih (processPrim s m).1 (processPrim_lookup_isSome s m q h)

theorem logStageLoop_lookup_isSome [DecidableEq M] (prims : List (Node M))
    (s : LoggerState M) (n : Node M) (hn : n ∈ prims) (hg : n.isGuide = false)
    (hx : n.isXformable = true) :
    ((logStageLoop s prims).1.last_transforms.lookup n.path).isSome := by
  induction prims generalizing s with
  | nil => cases hn
  | cons m rest ih =>
    rw [logStageLoop]
    rcases List.mem_cons.mp hn with rfl | hn'
    · rw [if_neg (by simp [hg])]
      refine logStageLoop_lookup_isSome_mono rest (processPrim s n).1 n.path ?_
      rw [processPrim_transforms, if_pos hx, logTransformStep_lookup_self]
      rfl
    · by_cases hgm : m.isGuide
      · rw [if_pos hgm]
        exact ih s hn'
      · rw [if_neg hgm]
        exact ih (processPrim s m).1 hn'

theorem keys_eraseP_not_mem [DecidableEq M] (memo : List (String × M)) (path : String)
    (h : (memo.map Prod.fst).Nodup) :
    path ∉ (memo.eraseP fun e => e.1 == path).map Prod.fst := by
  induction memo with
  | nil => simp
  | cons e rest ih =>
    obtain ⟨k, v⟩ := e
    simp only [List.map_cons, List.nodup_cons] at h
    by_cases hk : k = path
    · subst hk
      rw [List.eraseP_cons_of_pos (by simp)]
      exact h.1
    · rw [List.eraseP_cons_of_neg (by simpa using hk)]
      simp only [List.map_cons, List.mem_cons]
      rintro (h1 | h1)
      · exact hk h1.symm
      · exact ih h.2 h1

theorem keys_memoInsert_nodup [DecidableEq M] (memo : List (String × M))
    (path : String) (t : M) (h : (memo.map Prod.fst).Nodup) :
    ((memoInsert memo path t).map Prod.fst).Nodup := by
  rw [memoInsert]
  simp only [List.map_cons, List.nodup_cons]
  exact ⟨keys_eraseP_not_mem memo path h,
    h.sublist ((List.eraseP_sublist memo).map Prod.fst)⟩

theorem logTransformStep_keys_nodup [DecidableEq M] (memo : List (String × M))
    (path : String) (t : M) (h : (memo.map Prod.fst).Nodup) :
    ((logTransformStep memo path t).1.map Prod.fst).Nodup := by
  rw [logTransformStep]
  cases hl : memo.lookup path with
  | none => exact keys_memoInsert_nodup memo path t h
  | some prev =>
    by_cases hp : prev = t
    · simpa [hp] using h
    · simpa [hp] using keys_memoInsert_nodup memo path t h

theorem processPrim_keys_nodup [DecidableEq M] (s : LoggerState M) (n : Node M)
    (h : (s.last_transforms.map Prod.fst).Nodup) :
    ((processPrim s n).1.last_transforms.map Prod.fst).Nodup := by
  rw [processPrim_transforms]
  cases n.isXformable
  · simpa using h
  · simpa using logTransformStep_keys_nodup s.last_transforms n.path n.xform h

theorem logStageLoop_keys_nodup [DecidableEq M] (prims : List (Node M))
    (s : LoggerState M) (h : (s.last_transforms.map Prod.fst).Nodup) :
    ((logStageLoop s prims).1.last_transforms.map Prod.fst).Nodup := by
  induction prims generalizing s with
  | nil => exact h
  | cons m rest ih =>
    rw [logStageLoop]
    by_cases hgm : m.isGuide
    · rw [if_pos hgm]; exact ih s h
    · rw [if_neg hgm]; exact ih (processPrim s m).1 (processPrim_keys_nodup s m h)

theorem clearPass_memo_sublist [DecidableEq M] (memo : List (String × M))
    (current : List String) : (clearPass memo current).1.Sublist memo := by
  induction memo with
  | nil => exact List.Sublist.refl _
  | cons e rest ih =>
    rw [clearPass]
    by_cases hc : current.contains e.1 = true
    · rw [if_pos hc]
      exact ih.cons₂ e
    · rw [if_neg hc]
      exact ih.cons e

theorem clearPass_lookup_of_mem [DecidableEq M] (memo : List (String × M))
    (current : List String) (p : String) (hc : p ∈ current) :
    (clearPass memo current).1.lookup p = memo.lookup p := by
  induction memo with
  | nil => rfl
  | cons e rest ih =>
    obtain ⟨k, v⟩ := e
    rw [clearPass]
    by_cases hck : current.contains k = true
    · rw [if_pos hck]
      by_cases hpk : p = k
      · subst hpk
        rw [lookup_cons_self, lookup_cons_self]
      · rw [lookup_cons_ne k p v _ hpk, lookup_cons_ne k p v rest hpk, ih]
    · rw [if_neg hck]
      have hpk : p ≠ k := by
        intro hpk
        subst hpk
        exact hck (by simpa [List.elem_eq_mem] using hc)
      rw [lookup_cons_ne k p v rest hpk, ih]

theorem clearPass_lookup_of_not_mem [DecidableEq M] (memo : List (String × M))
    (current : List String) (p : String) (hc : p ∉ current) :
    (clearPass memo current).1.lookup p = none := by
  induction memo with
  | nil => rfl
  | cons e rest ih =>
    obtain ⟨k, v⟩ := e
    rw [clearPass]
    by_cases hck : current.contains k = true
    · rw [if_pos hck]
      have hpk : p ≠ k := by
        rintro rfl
        exact hc (by simpa [List.elem_eq_mem] using hck)
      rw [lookup_cons_ne k p v _ hpk, ih]
    · rw [if_neg hck]
      exact ih

theorem countClear_append (p : String) (l1 l2 : List (Event M)) :
    countClear p (l1 ++ l2) = countClear p l1 + countClear p l2 :=
  List.countP_append _ l1 l2

theorem countClear_cons_clear (p q : String) (l : List (Event M)) :
    countClear p (Event.clear q :: l) = countClear p l + (if q = p then 1 else 0) := by
  simp only [countClear, List.countP_cons]
  congr 1
  by_cases h : q = p <;> simp [h]

theorem clearPass_countClear [DecidableEq M] (memo : List (String × M))
    (current : List String) (p : String) :
    countClear p (clearPass memo current).2
      = if p ∈ current then 0 else (memo.map Prod.fst).count p := by
  induction memo with
  | nil => simp [clearPass, countClear]
  | cons e rest ih =>
    obtain ⟨k, v⟩ := e
    rw [clearPass]
    by_cases hck : current.contains k = true
    · rw [if_pos hck]
      dsimp only
      rw [ih]
      by_cases hpc : p ∈ current
      · rw [if_pos hpc, if_pos hpc]
      · rw [if_neg hpc, if_neg hpc]
        have hpk : k ≠ p := by
          rintro rfl
          exact hpc (by simpa [List.elem_eq_mem] using hck)
        simp [List.count_cons, hpk]
    · rw [if_neg hck]
      dsimp only
      rw [countClear_cons_clear, ih]
      have hknc : k ∉ current := fun h => hck (by simpa [List.elem_eq_mem] using h)
      by_cases hpk : k = p
      · subst hpk
        rw [if_neg hknc, if_neg hknc, if_pos rfl]
        simp [List.count_cons]
      · rw [if_neg hpk]
        by_cases hpc : p ∈ current
        · rw [if_pos hpc, if_pos hpc]
        · rw [if_neg hpc, if_neg hpc]
          simp [List.count_cons, hpk]

theorem processPrim_no_clear [DecidableEq M] (s : LoggerState M) (n : Node M)
    (p : String) : countClear p (processPrim s n).2 = 0 := by
  rcases n with ⟨np, ng, nx, nm, nc, nt⟩
  simp only [processPrim, countClear]
  cases nm <;> cases nc <;> cases nx <;>
    by_cases hnp : np ∈ s.logged_meshes <;>
      cases hr : (logTransformStep s.last_transforms np nt).2 <;>
        simp_all [List.countP_append, List.countP_cons, List.elem_eq_mem, countClear]

theorem logStageLoop_no_clear [DecidableEq M] (prims : List (Node M))
    (s : LoggerState M) (p : String) :
    countClear p (logStageLoop s prims).2.2 = 0 := by
  induction prims generalizing s with
  | nil => rfl
  | cons m rest ih =>
    rw [logStageLoop]
    by_cases hgm : m.isGuide
    · rw [if_pos hgm]; exact ih s
    · rw [if_neg hgm]
      show countClear p ((processPrim s m).2 ++ (logStageLoop (processPrim s m).1 rest).2.2) = 0
      rw [countClear_append, processPrim_no_clear, ih]

theorem logStageLoop_current_mem [DecidableEq M] (prims : List (Node M))
    (s : LoggerState M) (q : String) :
    q ∈ (logStageLoop s prims).2.1 ↔ ∃ m ∈ prims, m.isGuide = false ∧ m.path = q := by
  induction prims generalizing s with
  | nil => simp [logStageLoop]
  | cons m rest ih =>
    rw [logStageLoop]
    by_cases hgm : m.isGuide
    · rw [if_pos hgm, ih]
      constructor
      · rintro ⟨m2, hm2, h⟩
        exact ⟨m2, by simp [hm2], h⟩
      · rintro ⟨m2, hm2, hgf, h⟩
        rcases List.mem_cons.mp hm2 with rfl | hm2'
        · rw [hgm] at hgf; cases hgf
        · exact ⟨m2, hm2', hgf, h⟩
    · rw [if_neg hgm]
      have hg' : m.isGuide = false := by simpa using hgm
      show q ∈ m.path :: (logStageLoop (processPrim s m).1 rest).2.1 ↔ _
      rw [List.mem_cons, ih]
      constructor
      · rintro (rfl | ⟨m2, hm2, h⟩)
        · exact ⟨m, by simp, hg', rfl⟩
        · exact ⟨m2, by simp [hm2], h⟩
      · rintro ⟨m2, hm2, hgf, h⟩
        rcases List.mem_cons.mp hm2 with rfl | hm2'
        · exact Or.inl h.symm
        · exact Or.inr ⟨m2, hm2', hgf, h⟩

theorem logStage_countClear [DecidableEq M] (s : LoggerState M) (prims : List (Node M))
    (p : String) :
    countClear p (logStage s prims).2
      = if p ∈ (logStageLoop s prims).2.1 then 0
        else ((logStageLoop s prims).1.last_transforms.map Prod.fst).count p := by
  show countClear p ((logStageLoop s prims).2.2
    ++ (clearPass (logStageLoop s prims).1.last_transforms (logStageLoop s prims).2.1).2)
    = _
  rw [countClear_append, logStageLoop_no_clear, clearPass_countClear, Nat.zero_add]

theorem logStage_transforms [DecidableEq M] (s : LoggerState M) (prims : List (Node M)) :
    (logStage s prims).1.last_transforms
      = (clearPass (logStageLoop s prims).1.last_transforms
          (logStageLoop s prims).2.1).1 := rfl

/-- C8 (amended) — a node that is Xformable (hence memoized) in call
1 and absent from the visible set of call 2 receives exactly one clear
instruction during call 2; its memo entry is deleted, so a further
call in which it is still absent emits no clear for it.  (A visible
but non-Xformable node never enters the transform memo and receives
no clear; see the counterexample.) -/
theorem clear_on_absent_xformable [DecidableEq M]
    (s : LoggerState M) (prims1 prims2 prims3 : List (Node M)) (n : Node M)
    (hkeys : (s.last_transforms.map Prod.fst).Nodup)
    (hn : n ∈ prims1) (hg : n.isGuide = false) (hx : n.isXformable = true)
    (habs2 : ∀ m ∈ prims2, m.isGuide = false → m.path ≠ n.path)
    (habs3 : ∀ m ∈ prims3, m.isGuide = false → m.path ≠ n.path) :
    countClear n.path (logStage (logStage s prims1).1 prims2).2 = 1
    ∧ (logStage (logStage s prims1).1 prims2).1.last_transforms.lookup n.path = none
    ∧ countClear n.path
        (logStage (logStage (logStage s prims1).1 prims2).1 prims3).2 = 0 := by
  set s1 := (logStage s prims1).1 with hs1
  -- after call 1 the path is memoized and the memo keys are duplicate-free
  have hcur1 : n.path ∈ (logStageLoop s prims1).2.1 :=
    (logStageLoop_current_mem prims1 s n.path).mpr ⟨n, hn, hg, rfl⟩
  have hlook1 : (s1.last_transforms.lookup n.path).isSome := by
    rw [hs1, logStage_transforms, clearPass_lookup_of_mem _ _ _ hcur1]
    exact logStageLoop_lookup_isSome prims1 s n hn hg hx
  have hkeys1 : (s1.last_transforms.map Prod.fst).Nodup := by
    rw [hs1, logStage_transforms]
    exact (logStageLoop_keys_nodup prims1 s hkeys).sublist
      ((clearPass_memo_sublist _ _).map Prod.fst)
  -- call 2: the path is not visible, its memo entry survives the loop
  have hcur2 : n.path ∉ (logStageLoop s1 prims2).2.1 := by
    rw [logStageLoop_current_mem]
    rintro ⟨m, hm, hgf, h⟩
    exact habs2 m hm hgf h
  have hlook2 : ((logStageLoop s1 prims2).1.last_transforms.lookup n.path).isSome := by
    rw [logStageLoop_lookup_other prims2 s1 n.path habs2]
    exact hlook1
  have hkeys2 : ((logStageLoop s1 prims2).1.last_transforms.map Prod.fst).Nodup :=
    logStageLoop_keys_nodup prims2 s1 hkeys1
  have hmem2 : n.path ∈ (logStageLoop s1 prims2).1.last_transforms.map Prod.fst := by
    by_contra hcon
    rw [← lookup_eq_none_iff] at hcon
    rw [hcon] at hlook2
    cases hlook2
  refine ⟨?_, ?_, ?_⟩
  · rw [logStage_countClear, if_neg hcur2]
    exact List.count_eq_one_of_mem hkeys2 hmem2
  · rw [logStage_transforms]
    exact clearPass_lookup_of_not_mem _ _ _ hcur2
  · set s2 := (logStage s1 prims2).1 with hs2
    have hnone2 : s2.last_transforms.lookup n.path = none := by
      rw [hs2, logStage_transforms]
      exact clearPass_lookup_of_not_mem _ _ _ hcur2
    have hnone3 : (logStageLoop s2 prims3).1.last_transforms.lookup n.path = none := by
      rw [logStageLoop_lookup_other prims3 s2 n.path habs3]
      exact hnone2
    have hcur3 : n.path ∉ (logStageLoop s2 prims3).2.1 := by
      rw [logStageLoop_current_mem]
      rintro ⟨m, hm, hgf, h⟩
      exact habs3 m hm hgf h
    rw [logStage_countClear, if_neg hcur3]
    exact List.count_eq_zero.mpr ((lookup_eq_none_iff _ _).mp hnone3)

/-- A visible prim without any of the logger's type predicates (for
example a `Scope` or material prim): non-guide, not Xformable. -/
def looksNode : Node Nat := ⟨"/World/Looks", false, false, false, false, 0⟩

/-- C8 counterexample — `looksNode` is processed (visible, non-guide)
in call 1 and absent in call 2, yet call 2 emits zero clear
instructions for its path, not exactly one: the clear sweep is keyed
on the transform memo, which only Xformable prims enter. -/
theorem clear_missing_for_non_xformable :
    looksNode.isGuide = false
    ∧ countClear "/World/Looks"
        (logStage (logStage (⟨[], []⟩ : LoggerState Nat) [looksNode]).1
          ([] : List (Node Nat))).2 = 0 := by
  decide

theorem clear_on_absent_xformable_witness :
    ((([] : List (String × Nat)).map Prod.fst).Nodup
      ∧ (⟨"/World", false, true, false, false, 5⟩ : Node Nat)
          ∈ [(⟨"/World", false, true, false, false, 5⟩ : Node Nat)])
    ∧ countClear "/World"
        (logStage (logStage (⟨[], []⟩ : LoggerState Nat)
          [⟨"/World", false, true, false, false, 5⟩]).1 ([] : List (Node Nat))).2 = 1
    ∧ (logStage (logStage (⟨[], []⟩ : LoggerState Nat)
          [⟨"/World", false, true, false, false, 5⟩]).1
        ([] : List (Node Nat))).1.last_transforms.lookup "/World" = none
    ∧ countClear "/World"
        (logStage (logStage (logStage (⟨[], []⟩ : LoggerState Nat)
          [⟨"/World", false, true, false, false, 5⟩]).1 ([] : List (Node Nat))).1
          ([] : List (Node Nat))).2 = 0 :=
  ⟨⟨by decide, by decide⟩,
    clear_on_absent_xformable ⟨[], []⟩ [⟨"/World", false, true, false, false, 5⟩] [] []
      ⟨"/World", false, true, false, false, 5⟩ (by decide) (by decide) (by decide)
      (by decide) (by decide) (by decide)⟩

/-- A two-node scene: an Xformable root and a mesh. -/
def demoScene : List (Node Nat) :=
  [⟨"/World", false, true, false, false, 0⟩,
   ⟨"/World/Mesh", false, true, true, false, 1⟩]

theorem geometry_logged_once_witness :
    ("/World/Mesh" ∉ (⟨[], []⟩ : LoggerState Nat).logged_meshes
      ∧ visibleGeom "/World/Mesh" demoScene ∧ 1 ≤ 3)
    ∧ countGeom "/World/Mesh"
        ((logStageIter (⟨[], []⟩ : LoggerState Nat) demoScene 3).2.flatten) = 1
    ∧ countGeom "/World/Mesh"
        ((logStageIter (⟨[], []⟩ : LoggerState Nat) demoScene 3).2.headD []) = 1 :=
  ⟨⟨by decide, by decide, by decide⟩,
    geometry_logged_once demoScene "/World/Mesh" ⟨[], []⟩ (by decide) (by decide) 3
      (by decide)⟩

theorem transform_diff_idempotent_witness :
    (([] : List (String × Nat)).lookup "/World/Robot" ≠ some 7
      → (logTransformStep ([] : List (String × Nat)) "/World/Robot" 7).2 = true)
    ∧ (logTransformStep
        (logTransformStep ([] : List (String × Nat)) "/World/Robot" 7).1
        "/World/Robot" 7).2 = false :=
  transform_diff_idempotent [] "/World/Robot" 7

/-! ### Error propagation: `log_stage` has no per-prim exception handler -/

/-- A Python exception escaping `_get_image_texture_path` — for
example the `TypeError`/`IndexError` raised by
`diffuse_color.GetConnectedSource()[0]` when the `diffuseColor` input
has no connected source (a plain-color `UsdPreviewSurface`). -/
inductive PyErr where
  | typeError
  deriving DecidableEq, Repr

/-- What `_get_image_texture_path` observes of a prim's bound
material: no bound material; a `UsdPreviewSurface` shader whose
`diffuseColor` input either has no connected source (`none`) or a
connected source carrying an optional valid texture file path; or a
shader of an unsupported kind. -/
inductive MaterialDesc where
  | noMaterial
  | previewSurface (diffuseColorConnection : Option (Option String))
  | unsupported (id : String)
  deriving DecidableEq, Repr

/-- `_get_image_texture_path`, restricted to the outcomes the claim
needs: no bound material → print and return `None`;
`UsdPreviewSurface` → `diffuse_color.GetConnectedSource()[0]` raises
when the input is unconnected, otherwise the connected source's file
path (or `None` when it is not a valid asset path) is returned;
unsupported shader kind → print and return `None`.  There is no
`try`/`except` anywhere on this path in the source. -/
def getImageTexturePath : MaterialDesc → Except PyErr (Option String)
  | MaterialDesc.noMaterial => Except.ok none
  | MaterialDesc.previewSurface conn =>
    match conn with
    | none => Except.error PyErr.typeError
    | some file => Except.ok file
  | MaterialDesc.unsupported _ => Except.ok none

/-- A mesh prim as the error-propagation model sees it: path and
bound material. -/
structure GeomNode where
  path : String
  material : MaterialDesc
  deriving DecidableEq, Repr

/-- The material half of `_log_mesh` for a subset-free mesh: resolve
the texture path — unprotected, so an exception propagates — then log
the mesh entity (represented by its path). -/
def logMeshMaterial (n : GeomNode) : Except PyErr (List String) :=
  match getImageTexturePath n.material with
  | Except.error e => Except.error e
  | Except.ok _ => Except.ok [n.path]

/-- The traversal loop of `log_stage` over mesh prims: there is no
`try`/`except` around the loop body, so the first node whose
processing raises aborts the remaining siblings and the exception
surfaces to the caller. -/
def logStageMeshes : List GeomNode → Except PyErr (List String)
  | [] => Except.ok []
  | n :: rest =>
    match logMeshMaterial n with
    | Except.error e => Except.error e
    | Except.ok evs =>
      match logStageMeshes rest with
      | Except.error e => Except.error e
      | Except.ok more => Except.ok (evs ++ more)

/-- C9 — evaluation at the failing input: a mesh bound to a
plain-color `UsdPreviewSurface` (unconnected `diffuseColor`) makes
`_get_image_texture_path` raise; processed alone, the sibling mesh
logs fine, but with the raising mesh first the whole traversal
surfaces the exception and the sibling is never emitted —
contradicting the claim that no exception from one node's processing
aborts its siblings and that category 1–3 failures never surface. -/
theorem node_error_aborts_siblings :
    getImageTexturePath (MaterialDesc.previewSurface none) = Except.error PyErr.typeError
    ∧ logStageMeshes [⟨"/World/Good", MaterialDesc.noMaterial⟩]
        = Except.ok ["/World/Good"]
    ∧ logStageMeshes [⟨"/World/Bad", MaterialDesc.previewSurface none⟩,
        ⟨"/World/Good", MaterialDesc.noMaterial⟩]
        = Except.error PyErr.typeError :=
  ⟨rfl, rfl, rfl⟩

end UsdLogger
